import Mathlib

/-! # Longest increasing subsequence and binary-tree diameter

A shallow embedding of `q_0300_longest_increasing_subsequence.go` and
`q_0543_diameter-of-binary-tree.go`, followed by the properties proved about them.

Conventions of the embedding.

* A Go slice `[]int` of input values is a `List Int`.  The element values are only ever
  compared, never used in arithmetic, so every 64-bit value is an `Int` and nothing wraps.
* The counters held in `list`, `mem`, `temp` and `result` start at `0` or `1` and only change
  through `max` and `1 + _`; they are natural numbers bounded by `len(nums)`, hence modelled
  by `Nat`.
* A run-time panic (index out of range, `slices.Max` of an empty slice) is `none`.
* Counting loops are expressed with `forUp` and `forDown`, which run the body for the
  successive values of the loop variable.
-/

namespace LIS

/-! ## Loops -/

/-- The loop `for j := lo; j < hi; j++ { body }`: `forUp body n lo s` runs the body for
`j = lo, lo+1, ..., lo+n-1`, threading the state and stopping at the first panic. -/
def forUp {σ : Type} (body : Nat → σ → Option σ) : Nat → Nat → σ → Option σ
  | 0, _, s => some s
  | n + 1, j, s => (body j s).bind (forUp body n (j + 1))

/-- The loop `for i := hi; i >= 0; i-- { body }`: `forDown body (hi+1) s` runs the body for
`i = hi, hi-1, ..., 0`. -/
def forDown {σ : Type} (body : Nat → σ → Option σ) : Nat → σ → Option σ
  | 0, s => some s
  | i + 1, s => (body i s).bind (forDown body i)

/-! ## `lengthOfLIS` (bottom-up) -/

/-- Go's `slices.Max`: the running maximum started at `x[0]`; it panics on an empty slice. -/
def slicesMax : List Nat → Option Nat
  | [] => none
  | x :: xs => some (xs.foldl max x)

/-- The statement `list[i] = 1` of the initialisation loop. -/
def initBody (i : Nat) (list : List Nat) : Option (List Nat) :=
  if i < list.length then some (list.set i 1) else none

/-- Lines 6-9: `list := make([]int, len(nums))` followed by `for i := range list { list[i] = 1 }`. -/
def initList (n : Nat) : Option (List Nat) :=
  forUp initBody n 0 (List.replicate n 0)

/-- Lines 13-15: `if nums[i] < nums[j] { list[i] = max(list[i], 1+list[j]) }`. -/
def lisInnerBody (nums : List Int) (i j : Nat) (list : List Nat) : Option (List Nat) :=
  match nums[i]?, nums[j]? with
  | some a, some b =>
    if a < b then
      match list[i]?, list[j]? with
      | some li, some lj => some (list.set i (max li (1 + lj)))
      | _, _ => none
    else some list
  | _, _ => none

/-- Lines 12-16: `for j := i + 1; j < len(nums); j++ { ... }`. -/
def lisInner (nums : List Int) (i : Nat) (list : List Nat) : Option (List Nat) :=
  forUp (lisInnerBody nums i) (nums.length - (i + 1)) (i + 1) list

/-- Lines 11-17: `for i := len(nums); i >= 0; i-- { ... }`; the first value of `i` is
`len(nums)` itself. -/
def lisOuter (nums : List Int) (list : List Nat) : Option (List Nat) :=
  forDown (lisInner nums) (nums.length + 1) list

/-- The function `lengthOfLIS`. -/
def lengthOfLIS (nums : List Int) : Option Nat :=
  (initList nums.length).bind fun list =>
  (lisOuter nums list).bind fun list =>
  slicesMax list

/-! ## `lengthOfLISRecursive` (top-down, memoised) -/

/-- The map `mem`: an association list, most recent binding first. -/
abbrev Mem := List (Nat × Nat)

/-- Lines 35-38 of the closure `dfs`, given the recursive call `rec`:
`if nums[i] < nums[j] { temp = max(temp, 1+dfs(j)) }`; the state is `(temp, mem)`. -/
def dfsBody (nums : List Int) (rec : Nat → Mem → Option (Nat × Mem)) (i j : Nat)
    (st : Nat × Mem) : Option (Nat × Mem) :=
  match nums[i]?, nums[j]? with
  | some a, some b =>
    if a < b then (rec j st.2).map fun r => (max st.1 (1 + r.1), r.2)
    else some st
  | _, _ => none

/-- The closure `dfs` (lines 25-43).  The first argument bounds the recursion depth; `none`
is returned when it is exhausted. -/
def dfs (nums : List Int) : Nat → Nat → Mem → Option (Nat × Mem)
  | 0, _, _ => none
  | fuel + 1, i, mem =>
    if nums.length ≤ i then some (0, mem)
    else
      match mem.lookup i with
      | some v => some (v, mem)
      | none =>
        (forUp (dfsBody nums (dfs nums fuel) i) (nums.length - (i + 1)) (i + 1) (1, mem)).map
          fun st => (st.1, (i, st.1) :: st.2)

/-- Line 46: `result = max(result, dfs(index))`; the state is `(result, mem)`. -/
def recBody (nums : List Int) (index : Nat) (st : Nat × Mem) : Option (Nat × Mem) :=
  (dfs nums (nums.length + 1) index st.2).map fun r => (max st.1 r.1, r.2)

/-- The function `lengthOfLISRecursive`. -/
def lengthOfLISRecursive (nums : List Int) : Option Nat :=
  (forUp (recBody nums) nums.length 0 (0, [])).map fun st => st.1

/-! ## Specification -/

/-- The indices `idx = [i1, ..., ik]` select a strictly increasing subsequence of `nums`:
`i1 < i2 < ... < ik` and `nums[i1] < nums[i2] < ... < nums[ik]`. -/
def IsIncSubseq (nums : List Int) (idx : List (Fin nums.length)) : Prop :=
  idx.Chain' (· < ·) ∧ (idx.map (fun i => nums[i])).Chain' (· < ·)

/-- The number `k` is the length of the longest strictly increasing subsequence of `nums`:
some strictly increasing subsequence has `k` elements, and none has more. -/
def IsLISLength (nums : List Int) (k : Nat) : Prop :=
  (∃ idx, IsIncSubseq nums idx ∧ idx.length = k) ∧ ∀ idx, IsIncSubseq nums idx → idx.length ≤ k

/-! ## The recurrence shared by both algorithms -/

/-- Length of the longest strictly increasing sequence that begins with `x` and continues
with elements taken, in order, from the list that follows `x`. -/
def bestFrom : Int → List Int → Nat
  | _, [] => 1
  | x, y :: rest => max (bestFrom x rest) (if x < y then 1 + bestFrom y rest else 1)

/-- Maximum of `bestFrom` over all starting positions; `0` for the empty list. -/
def lisAll : List Int → Nat
  | [] => 0
  | x :: rest => max (bestFrom x rest) (lisAll rest)

/-- The value of the recurrence at index `i`: `0` past the end. -/
def startAt (nums : List Int) (i : Nat) : Nat :=
  match nums.drop i with
  | [] => 0
  | x :: rest => bestFrom x rest

/-- The slice of length `n` whose entry at index `m` is `f m`. -/
def tab (n : Nat) (f : Nat → Nat) : List Nat :=
  (List.range n).map f

/-- The table after the outer loop has treated the indices `k, k+1, ...`. -/
def tableAt (nums : List Int) (k : Nat) : List Nat :=
  tab nums.length (fun m => if k ≤ m then startAt nums m else 1)

/-- The table of the values of the recurrence, position by position. -/
def bestTable : List Int → List Nat
  | [] => []
  | x :: rest => bestFrom x rest :: bestTable rest

/-- Every entry present in the map holds the value of the recurrence at its key. -/
def MemOK (nums : List Int) (mem : Mem) : Prop :=
  ∀ i v, mem.lookup i = some v → v = startAt nums i

/-- Lines 6-17 of `lengthOfLIS`: the table `list` when the nested loops finish, just before
the final maximum is taken. -/
def lisTable (nums : List Int) : Option (List Nat) :=
  (initList nums.length).bind (lisOuter nums)

/-- The number `v` is the length of the longest strictly increasing subsequence of `nums`
that starts at index `i`: some such subsequence with first index `i` has `v` elements, and
none has more. -/
def IsLongestFrom (nums : List Int) (i : Fin nums.length) (v : Nat) : Prop :=
  (∃ idx, IsIncSubseq nums idx ∧ idx.head? = some i ∧ idx.length = v) ∧
    ∀ idx, IsIncSubseq nums idx → idx.head? = some i → idx.length ≤ v

/-- The number `v` is `max(1, max over j > i with nums[j] > nums[i] of 1 + table[j])`: it is
at least `1` and at least every candidate `1 + table[j]`, and it is `1` or one of the
candidates. -/
def IsRecurrenceMax (nums : List Int) (table : List Nat) (i : Fin nums.length) (v : Nat) :
    Prop :=
  1 ≤ v ∧
    (∀ (j : Fin nums.length) (t : Nat), i < j → nums[i] < nums[j] → table[j.val]? = some t →
      1 + t ≤ v) ∧
    (v = 1 ∨ ∃ (j : Fin nums.length) (t : Nat), i < j ∧ nums[i] < nums[j] ∧
      table[j.val]? = some t ∧ v = 1 + t)

/-- Lines 13-15 together with a record of the executed index pairs: every time the body of
the inner loop is run for `(i, j)` the pair is put on the log (the state is the table paired
with the log).  An access out of range still makes the whole run panic. -/
def loggedBody (nums : List Int) (i j : Nat) (st : List Nat × List (Nat × Nat)) :
    Option (List Nat × List (Nat × Nat)) :=
  (lisInnerBody nums i j st.1).map fun list => (list, (i, j) :: st.2)

/-- The inner loop of lines 12-16, with the log. -/
def loggedInner (nums : List Int) (i : Nat) (st : List Nat × List (Nat × Nat)) :
    Option (List Nat × List (Nat × Nat)) :=
  forUp (loggedBody nums i) (nums.length - (i + 1)) (i + 1) st

/-- The outer loop of lines 11-17, with the log. -/
def loggedOuter (nums : List Int) (st : List Nat × List (Nat × Nat)) :
    Option (List Nat × List (Nat × Nat)) :=
  forDown (loggedInner nums) (nums.length + 1) st

/-- Lines 6-17 with the log, started empty: the final table and the pairs `(i, j)` for which
the body of the inner loop was executed. -/
def lisTableLogged (nums : List Int) : Option (List Nat × List (Nat × Nat)) :=
  (initList nums.length).bind fun list => loggedOuter nums (list, [])

/-- One step of the recurrence without the map: `temp = max(temp, 1 + dfs(j))` when
`nums[i] < nums[j]`; the state is `temp`. -/
def plainBody (nums : List Int) (rec : Nat → Option Nat) (i j : Nat) (temp : Nat) :
    Option Nat :=
  match nums[i]?, nums[j]? with
  | some a, some b => if a < b then (rec j).map fun r => max temp (1 + r) else some temp
  | _, _ => none

/-- The unmemoised recurrence, as the description states it: `dfs(i) = 0` for `i` beyond the
last valid index, otherwise `dfs(i) = max(1, max over all j > i with nums[j] > nums[i] of
1 + dfs(j))`.  The first argument bounds the recursion depth. -/
def dfsPlain (nums : List Int) : Nat → Nat → Option Nat
  | 0, _ => none
  | fuel + 1, i =>
    if nums.length ≤ i then some 0
    else forUp (plainBody nums (dfsPlain nums fuel) i) (nums.length - (i + 1)) (i + 1) 1

/-- Every entry present in the map equals the value of the unmemoised recurrence at its
key. -/
def MemSound (nums : List Int) (mem : Mem) : Prop :=
  ∀ i v, mem.lookup i = some v → dfsPlain nums (nums.length + 1) i = some v

/-- Successive calls `dfs(i)` for the indices of `order`, in that order, on one map: the
returned values and the final map. -/
def visitAll (nums : List Int) : List Nat → Mem → Option (List Nat × Mem)
  | [], mem => some ([], mem)
  | i :: rest, mem =>
    (dfs nums (nums.length + 1) i mem).bind fun r =>
      (visitAll nums rest r.2).map fun q => (r.1 :: q.1, q.2)

end LIS

namespace Diameter

/-! ## `diameterOfBinaryTree` -/

/-- Modelled from the spec: the declaration of `utils.TreeNode` (package
`github.com/hi-rustin/lg/src/utils`) is not among the sources; following the data model, a
tree node carries an integer value and two optional children `Left` and `Right`.  A `nil`
pointer is the constructor `nil`; being an inductive type, it holds finite trees without
sharing or cycles only. -/
inductive TreeNode where
  | nil : TreeNode
  | node (val : Int) (left right : TreeNode) : TreeNode
  deriving DecidableEq

/-- The closure `dfs` (lines 9-17); the captured variable `res` is threaded through: the
result is the returned value paired with the new `res`. -/
def dfs : TreeNode → Int → Int × Int
  | .nil, res => (-1, res)
  | .node _ l r, res =>
    let left := dfs l res
    let right := dfs r left.2
    (1 + max left.1 right.1, max right.2 (2 + left.1 + right.1))

/-- The function `diameterOfBinaryTree`: `res := 0`, `dfs(root)`, `return res`. -/
def diameterOfBinaryTree (root : TreeNode) : Int :=
  (dfs root 0).2

/-! ## Specification -/

/-- A node is addressed by the path leading to it from the root, `false` for `Left` and
`true` for `Right`; `isNode t p` says that the path `p` ends on a node of `t`. -/
def isNode : TreeNode → List Bool → Bool
  | .nil, _ => false
  | .node _ _ _, [] => true
  | .node _ l r, b :: p => isNode (if b then r else l) p

/-- Tree distance between the nodes addressed by `p` and `q`: the number of edges of the
path joining them, which climbs from the first node to their lowest common ancestor and
descends to the second.  A common first step is dropped; once the paths part (or one of them
ends) the remaining steps of both are all edges of the joining path. -/
def dist : List Bool → List Bool → Nat
  | a :: p, b :: q => if a = b then dist p q else (p.length + 1) + (q.length + 1)
  | [], q => q.length
  | p, [] => p.length

/-- Address of the lowest common ancestor of the nodes addressed by `p` and `q`: the longest
common initial segment of the two paths. -/
def lca : List Bool → List Bool → List Bool
  | a :: p, b :: q => if a = b then a :: lca p q else []
  | _, _ => []

/-- The integer `d` is the diameter of `t`: the greatest tree distance between two nodes of
`t`, and `0` when `t` has no node. -/
def IsDiameter (t : TreeNode) (d : Int) : Prop :=
  (∀ p q, isNode t p = true → isNode t q = true → (dist p q : Int) ≤ d) ∧
  ((∃ p q, isNode t p = true ∧ isNode t q = true ∧ (dist p q : Int) = d) ∨
    (t = TreeNode.nil ∧ d = 0))

/-- Number of nodes. -/
def size : TreeNode → Nat
  | .nil => 0
  | .node _ l r => 1 + size l + size r

/-- A straight chain: every node but the last has exactly one child, on either side; the
last node has none. -/
inductive IsChain : TreeNode → Prop
  | last (v : Int) : IsChain (.node v .nil .nil)
  | left (v : Int) (l : TreeNode) : IsChain l → IsChain (.node v l .nil)
  | right (v : Int) (r : TreeNode) : IsChain r → IsChain (.node v .nil r)

/-- Left-right mirror image: the two children of every node are exchanged. -/
def mirror : TreeNode → TreeNode
  | .nil => .nil
  | .node v l r => .node v (mirror r) (mirror l)

/-- Height counted in edges, `-1` for the absent tree. -/
def height : TreeNode → Int
  | .nil => -1
  | .node _ l r => 1 + max (height l) (height r)

/-- Greatest value of `2 + height left + height right` over the nodes, `0` if there is none. -/
def diam : TreeNode → Int
  | .nil => 0
  | .node _ l r => max (max (diam l) (diam r)) (2 + height l + height r)

/-- The candidate values `2 + height(v.left) + height(v.right)`, one for every node `v` of
the tree: the root first, then the nodes of the left and of the right subtree. -/
def apexes : TreeNode → List Int
  | .nil => []
  | .node _ l r => (2 + height l + height r) :: (apexes l ++ apexes r)

end Diameter

namespace LIS

theorem bestFrom_pos (x : Int) (l : List Int) : 1 ≤ bestFrom x l := by
  cases l with
  | nil => simp [bestFrom]
  | cons y rest =>
    simp only [bestFrom]
    split <;> omega

theorem bestFrom_upper (rest : List Int) :
    ∀ (x : Int) (s : List Int), s.Sublist rest → (x :: s).Chain' (· < ·) →
      s.length + 1 ≤ bestFrom x rest := by
  induction rest with
  | nil =>
    intro x s hs _
    have : s = [] := List.sublist_nil.mp hs
    simp [this, bestFrom]
  | cons y rest ih =>
    intro x s hs hc
    simp only [bestFrom]
    cases hs with
    | cons _ h =>
      have := ih x s h hc
      omega
    | cons₂ _ h =>
      rename_i s1
      have hxy : x < y := (List.chain'_cons.mp hc).1
      have hc1 : (y :: s1).Chain' (· < ·) := (List.chain'_cons.mp hc).2
      have := ih y s1 h hc1
      simp only [hxy, if_true, List.length_cons]
      omega

theorem bestFrom_attained (rest : List Int) :
    ∀ x : Int, ∃ s : List Int, s.Sublist rest ∧ (x :: s).Chain' (· < ·) ∧
      s.length + 1 = bestFrom x rest := by
  induction rest with
  | nil =>
    intro x
    exact ⟨[], List.Sublist.refl _, List.chain'_singleton x, by simp [bestFrom]⟩
  | cons y rest ih =>
    intro x
    obtain ⟨s, hs, hc, hl⟩ := ih x
    by_cases hxy : x < y
    · obtain ⟨t, ht, hct, hlt⟩ := ih y
      by_cases hle : 1 + bestFrom y rest ≤ bestFrom x rest
      · refine ⟨s, List.Sublist.cons _ hs, hc, ?_⟩
        simp only [bestFrom, hxy, if_true]
        omega
      · refine ⟨y :: t, List.Sublist.cons₂ _ ht, List.chain'_cons.mpr ⟨hxy, hct⟩, ?_⟩
        simp only [bestFrom, hxy, if_true, List.length_cons]
        omega
    · refine ⟨s, List.Sublist.cons _ hs, hc, ?_⟩
      have := bestFrom_pos x rest
      simp only [bestFrom, hxy, if_false]
      omega

theorem lisAll_upper (nums : List Int) :
    ∀ s : List Int, s.Sublist nums → s.Chain' (· < ·) → s.length ≤ lisAll nums := by
  induction nums with
  | nil =>
    intro s hs _
    have : s = [] := List.sublist_nil.mp hs
    simp [this]
  | cons x rest ih =>
    intro s hs hc
    simp only [lisAll]
    cases hs with
    | cons _ h =>
      have := ih s h hc
      omega
    | cons₂ _ h =>
      rename_i s1
      have := bestFrom_upper rest x s1 h hc
      simp only [List.length_cons]
      omega

theorem lisAll_attained (nums : List Int) :
    ∃ s : List Int, s.Sublist nums ∧ s.Chain' (· < ·) ∧ s.length = lisAll nums := by
  induction nums with
  | nil => exact ⟨[], List.Sublist.refl _, List.chain'_nil, rfl⟩
  | cons x rest ih =>
    obtain ⟨s, hs, hc, hl⟩ := ih
    obtain ⟨t, ht, hct, hlt⟩ := bestFrom_attained rest x
    by_cases hle : bestFrom x rest ≤ lisAll rest
    · refine ⟨s, List.Sublist.cons _ hs, hc, ?_⟩
      simp only [lisAll]
      omega
    · refine ⟨x :: t, List.Sublist.cons₂ _ ht, hct, ?_⟩
      simp only [lisAll, List.length_cons]
      omega

theorem lisAll_spec (nums : List Int) : IsLISLength nums (lisAll nums) := by
  constructor
  · obtain ⟨s, hs, hc, hl⟩ := lisAll_attained nums
    obtain ⟨idx, hidx, hp⟩ := List.sublist_eq_map_getElem hs
    refine ⟨idx, ⟨List.chain'_iff_pairwise.mpr hp, ?_⟩, ?_⟩
    · have e : (idx.map fun i => nums[i]) = s := hidx.symm
      rw [e]
      exact hc
    · rw [← hl, hidx, List.length_map]
  · intro idx hidx
    have hsub : (idx.map fun i => nums[i]).Sublist nums :=
      List.map_getElem_sublist (List.chain'_iff_pairwise.mp hidx.1)
    have := lisAll_upper nums _ hsub hidx.2
    rwa [List.length_map] at this

theorem IsLISLength.unique {nums : List Int} {a b : Nat}
    (ha : IsLISLength nums a) (hb : IsLISLength nums b) : a = b := by
  obtain ⟨⟨s, hs, hsl⟩, hau⟩ := ha
  obtain ⟨⟨t, ht, htl⟩, hbu⟩ := hb
  have h1 := hau t ht
  have h2 := hbu s hs
  omega

theorem lisAll_pos {nums : List Int} (h : nums ≠ []) : 1 ≤ lisAll nums := by
  cases nums with
  | nil => exact absurd rfl h
  | cons x rest =>
    have := bestFrom_pos x rest
    simp only [lisAll]
    omega

theorem bestFrom_append_gt (rest : List Int) (x : Int) :
    ∀ a : Int, a < x → (∀ b ∈ rest, b < x) → bestFrom a (rest ++ [x]) = bestFrom a rest + 1 := by
  induction rest with
  | nil =>
    intro a ha _
    simp [bestFrom, ha]
  | cons y rest ih =>
    intro a ha hall
    have hy : y < x := hall y (List.mem_cons_self _ _)
    have hr : ∀ b ∈ rest, b < x := fun b hb => hall b (List.mem_cons_of_mem _ hb)
    have := bestFrom_pos a rest
    have e1 := ih a ha hr
    have e2 := ih y hy hr
    show bestFrom a (y :: (rest ++ [x])) = bestFrom a (y :: rest) + 1
    simp only [bestFrom, e1, e2]
    split <;> omega

theorem lisAll_append_gt (S : List Int) (x : Int) :
    S ≠ [] → (∀ b ∈ S, b < x) → lisAll (S ++ [x]) = lisAll S + 1 := by
  induction S with
  | nil => intro h; exact absurd rfl h
  | cons a rest ih =>
    intro _ hall
    have ha : a < x := hall a (List.mem_cons_self _ _)
    have hr : ∀ b ∈ rest, b < x := fun b hb => hall b (List.mem_cons_of_mem _ hb)
    have e1 := bestFrom_append_gt rest x a ha hr
    show lisAll (a :: (rest ++ [x])) = lisAll (a :: rest) + 1
    simp only [lisAll, e1]
    by_cases hn : rest = []
    · subst hn
      simp [lisAll, bestFrom]
    · rw [ih hn hr]
      omega

theorem bestFrom_of_all_le (a : Int) (rest : List Int) (h : ∀ b ∈ rest, b ≤ a) :
    bestFrom a rest = 1 := by
  induction rest with
  | nil => rfl
  | cons y rest ih =>
    have hy : ¬ a < y := not_lt.mpr (h y (List.mem_cons_self _ _))
    have := ih fun b hb => h b (List.mem_cons_of_mem _ hb)
    simp only [bestFrom, hy, if_false, this]
    omega

theorem lisAll_of_nonincreasing (S : List Int) (hS : S ≠ []) (h : S.Pairwise (· ≥ ·)) :
    lisAll S = 1 := by
  induction S with
  | nil => exact absurd rfl hS
  | cons a rest ih =>
    have h1 := List.pairwise_cons.mp h
    have hb : bestFrom a rest = 1 := bestFrom_of_all_le a rest fun b hb => h1.1 b hb
    simp only [lisAll, hb]
    by_cases hn : rest = []
    · subst hn
      simp [lisAll]
    · rw [ih hn h1.2]
      omega

/-! ## Tables indexed by position -/

theorem tab_length (n : Nat) (f : Nat → Nat) : (tab n f).length = n := by
  simp [tab]

theorem tab_getElem? (n : Nat) (f : Nat → Nat) (m : Nat) :
    (tab n f)[m]? = if m < n then some (f m) else none := by
  unfold tab
  by_cases h : m < n
  · simp [h, List.getElem?_range]
  · simp [h]
    omega

theorem tab_congr {n : Nat} {f g : Nat → Nat} (h : ∀ m, m < n → f m = g m) :
    tab n f = tab n g := by
  apply List.ext_getElem?
  intro m
  rw [tab_getElem?, tab_getElem?]
  by_cases hm : m < n
  · simp [hm, h m hm]
  · simp [hm]

theorem tab_set (n : Nat) (f : Nat → Nat) (i v : Nat) :
    (tab n f).set i v = tab n (Function.update f i v) := by
  apply List.ext_getElem?
  intro m
  rw [List.getElem?_set, tab_getElem?, tab_getElem?]
  by_cases him : i = m
  · subst him
    by_cases hi : i < n <;> simp [hi, tab_length]
  · have : m ≠ i := fun h => him h.symm
    simp [him, Function.update_noteq this]

theorem replicate_eq_tab (n v : Nat) : List.replicate n v = tab n (fun _ => v) := by
  apply List.ext_getElem?
  intro m
  rw [tab_getElem?, List.getElem?_replicate]

/-! ## The bottom-up algorithm computes the recurrence -/

theorem drop_of_getElem? {nums : List Int} {j : Nat} {y : Int} (h : nums[j]? = some y) :
    nums.drop j = y :: nums.drop (j + 1) := by
  obtain ⟨hj, rfl⟩ := List.getElem?_eq_some.mp h
  exact List.drop_eq_getElem_cons hj

theorem startAt_of_getElem? {nums : List Int} {j : Nat} {y : Int} (h : nums[j]? = some y) :
    startAt nums j = bestFrom y (nums.drop (j + 1)) := by
  simp [startAt, drop_of_getElem? h]

theorem startAt_of_le {nums : List Int} {j : Nat} (h : nums.length ≤ j) : startAt nums j = 0 := by
  simp [startAt, List.drop_eq_nil_of_le h]

theorem initBody_tab (n : Nat) (f : Nat → Nat) (i : Nat) (hi : i < n) :
    initBody i (tab n f) = some (tab n (Function.update f i 1)) := by
  simp [initBody, hi, tab_set, tab_length]

theorem forUp_init (n : Nat) :
    ∀ (c s : Nat) (f : Nat → Nat), s + c ≤ n →
      forUp initBody c s (tab n f) =
        some (tab n (fun m => if s ≤ m ∧ m < s + c then 1 else f m)) := by
  intro c
  induction c with
  | zero =>
    intro s f _
    simp only [forUp]
    congr 1
    apply tab_congr
    intro m _
    have : ¬ (s ≤ m ∧ m < s + 0) := by omega
    rw [if_neg this]
  | succ c ih =>
    intro s f h
    simp only [forUp]
    rw [initBody_tab n f s (by omega), Option.some_bind, ih (s + 1) _ (by omega)]
    congr 1
    apply tab_congr
    intro m _
    by_cases hm : m = s
    · subst hm
      simp
    · by_cases h1 : s + 1 ≤ m ∧ m < s + 1 + c
      · have h2 : s ≤ m ∧ m < s + (c + 1) := by omega
        simp [h1, h2]
      · have h2 : ¬ (s ≤ m ∧ m < s + (c + 1)) := by omega
        simp [h1, h2, Function.update_noteq hm]

theorem initList_eq (n : Nat) : initList n = some (tab n (fun _ => 1)) := by
  unfold initList
  rw [replicate_eq_tab, forUp_init n n 0 _ (by omega)]
  congr 1
  apply tab_congr
  intro m hm
  simp [hm]

theorem forUp_lisInner (nums : List Int) (i : Nat) (x : Int) (hx : nums[i]? = some x) :
    ∀ (c j : Nat) (f : Nat → Nat), i < j → j + c = nums.length → 1 ≤ f i →
      (∀ m, i < m → m < nums.length → f m = startAt nums m) →
      forUp (lisInnerBody nums i) c j (tab nums.length f) =
        some (tab nums.length
          (Function.update f i (max (f i) (bestFrom x (nums.drop j))))) := by
  have hi : i < nums.length := (List.getElem?_eq_some.mp hx).1
  intro c
  induction c with
  | zero =>
    intro j f _ hjc hpos _
    simp only [forUp]
    congr 1
    have hd : nums.drop j = [] := List.drop_eq_nil_of_le (by omega)
    have : max (f i) (bestFrom x (nums.drop j)) = f i := by
      rw [hd]
      simp only [bestFrom]
      omega
    rw [this, Function.update_eq_self]
  | succ c ih =>
    intro j f hij hjc hpos hf
    have hj : j < nums.length := by omega
    have hy : nums[j]? = some nums[j] := List.getElem?_eq_getElem hj
    have hfj : f j = bestFrom nums[j] (nums.drop (j + 1)) := by
      rw [hf j hij hj, startAt_of_getElem? hy]
    simp only [forUp]
    by_cases hlt : x < nums[j]
    · have hb : lisInnerBody nums i j (tab nums.length f) =
          some (tab nums.length (Function.update f i (max (f i) (1 + f j)))) := by
        simp only [lisInnerBody, hx, hy, hlt, if_true, tab_getElem?, hi, hj, tab_set]
      rw [hb, Option.some_bind, ih (j + 1) _ (by omega) (by omega)]
      · congr 1
        apply tab_congr
        intro m _
        by_cases hm : m = i
        · subst hm
          simp only [Function.update_same]
          rw [drop_of_getElem? hy]
          simp only [bestFrom, hlt, if_true, hfj]
          omega
        · simp [Function.update_noteq hm]
      · simp only [Function.update_same]
        omega
      · intro m him hm
        rw [Function.update_noteq (by omega), hf m him hm]
    · have hb : lisInnerBody nums i j (tab nums.length f) = some (tab nums.length f) := by
        simp only [lisInnerBody, hx, hy, hlt, if_false]
      have e : bestFrom x (nums.drop j) = bestFrom x (nums.drop (j + 1)) := by
        have := bestFrom_pos x (nums.drop (j + 1))
        rw [drop_of_getElem? hy]
        simp only [bestFrom, hlt, if_false]
        omega
      rw [hb, Option.some_bind, ih (j + 1) f (by omega) (by omega) hpos hf, e]

theorem lisInner_tableAt (nums : List Int) (i : Nat) (hi : i ≤ nums.length) :
    lisInner nums i (tableAt nums (i + 1)) = some (tableAt nums i) := by
  unfold lisInner tableAt
  rcases Nat.lt_or_ge i nums.length with hlt | hge
  · have hx : nums[i]? = some nums[i] := List.getElem?_eq_getElem hlt
    rw [forUp_lisInner nums i nums[i] hx _ (i + 1) _ (by omega) (by omega) (by simp)]
    · congr 1
      apply tab_congr
      intro m _
      by_cases hm : m = i
      · subst hm
        have := bestFrom_pos nums[m] (nums.drop (m + 1))
        simp only [Function.update_same, startAt_of_getElem? hx, le_refl, if_true]
        have h0 : ¬ (m + 1 ≤ m) := by omega
        simp only [h0, if_false]
        omega
      · rw [Function.update_noteq hm]
        by_cases h1 : i + 1 ≤ m
        · have h2 : i ≤ m := by omega
          simp [h1, h2]
        · have h2 : ¬ (i ≤ m) := by omega
          simp [h1, h2]
    · intro m him _
      have h1 : i + 1 ≤ m := by omega
      simp [h1]
  · have hc : nums.length - (i + 1) = 0 := by omega
    rw [hc]
    simp only [forUp]
    congr 1
    apply tab_congr
    intro m hm
    have h1 : ¬ (i + 1 ≤ m) := by omega
    have h2 : ¬ (i ≤ m) := by omega
    simp [h1, h2]

theorem forDown_lisInner (nums : List Int) :
    ∀ k : Nat, k ≤ nums.length + 1 →
      forDown (lisInner nums) k (tableAt nums k) = some (tableAt nums 0) := by
  intro k
  induction k with
  | zero => intro _; rfl
  | succ k ih =>
    intro hk
    simp only [forDown]
    rw [lisInner_tableAt nums k (by omega), Option.some_bind, ih (by omega)]

theorem tableAt_zero (nums : List Int) : tableAt nums 0 = bestTable nums := by
  unfold tableAt
  induction nums with
  | nil => rfl
  | cons x rest ih =>
    simp only [bestTable, ← ih]
    apply List.ext_getElem?
    intro m
    cases m with
    | zero =>
      rw [tab_getElem?]
      simp [startAt]
    | succ m =>
      rw [tab_getElem?, List.getElem?_cons_succ, tab_getElem?]
      simp [startAt]

theorem lisOuter_eq (nums : List Int) :
    lisOuter nums (tab nums.length (fun _ => 1)) = some (bestTable nums) := by
  have h0 : tab nums.length (fun _ => 1) = tableAt nums (nums.length + 1) := by
    unfold tableAt
    apply tab_congr
    intro m hm
    have : ¬ (nums.length + 1 ≤ m) := by omega
    simp [this]
  unfold lisOuter
  rw [h0, forDown_lisInner nums _ (le_refl _), tableAt_zero]

theorem foldl_max_bestTable (rest : List Int) :
    ∀ a : Nat, (bestTable rest).foldl max a = max a (lisAll rest) := by
  induction rest with
  | nil => intro a; simp [bestTable, lisAll]
  | cons x rest ih =>
    intro a
    simp only [bestTable, List.foldl_cons, ih, lisAll]
    omega

theorem slicesMax_bestTable (x : Int) (rest : List Int) :
    slicesMax (bestTable (x :: rest)) = some (lisAll (x :: rest)) := by
  simp only [bestTable, slicesMax, foldl_max_bestTable, lisAll]

/-- On a non-empty slice, `lengthOfLIS` returns the maximum of the recurrence. -/
theorem lengthOfLIS_eq (nums : List Int) (h : nums ≠ []) :
    lengthOfLIS nums = some (lisAll nums) := by
  unfold lengthOfLIS
  rw [initList_eq, Option.some_bind, lisOuter_eq, Option.some_bind]
  cases nums with
  | nil => exact absurd rfl h
  | cons x rest => exact slicesMax_bestTable x rest

/-! ## The memoised algorithm computes the recurrence -/

theorem MemOK_nil (nums : List Int) : MemOK nums [] := by
  intro i v h
  simp [List.lookup] at h

theorem MemOK_cons {nums : List Int} {mem : Mem} (i : Nat) (h : MemOK nums mem) :
    MemOK nums ((i, startAt nums i) :: mem) := by
  intro k v hk
  by_cases hki : k = i
  · subst hki
    simp [List.lookup] at hk
    exact hk.symm
  · have : (k == i) = false := by simpa using hki
    simp only [List.lookup, this] at hk
    exact h k v hk

theorem forUp_dfsBody (nums : List Int) (rec : Nat → Mem → Option (Nat × Mem)) (i : Nat)
    (x : Int) (hx : nums[i]? = some x)
    (hrec : ∀ j mem, i < j → j < nums.length → MemOK nums mem →
      ∃ mem1, rec j mem = some (startAt nums j, mem1) ∧ MemOK nums mem1) :
    ∀ (c j temp : Nat) (mem : Mem), i < j → j + c = nums.length → 1 ≤ temp → MemOK nums mem →
      ∃ mem1, forUp (dfsBody nums rec i) c j (temp, mem) =
        some (max temp (bestFrom x (nums.drop j)), mem1) ∧ MemOK nums mem1 := by
  intro c
  induction c with
  | zero =>
    intro j temp mem _ hjc hpos hmem
    refine ⟨mem, ?_, hmem⟩
    have hd : nums.drop j = [] := List.drop_eq_nil_of_le (by omega)
    have : max temp (bestFrom x (nums.drop j)) = temp := by
      rw [hd]
      simp only [bestFrom]
      omega
    rw [this]
    rfl
  | succ c ih =>
    intro j temp mem hij hjc hpos hmem
    have hj : j < nums.length := by omega
    have hy : nums[j]? = some nums[j] := List.getElem?_eq_getElem hj
    simp only [forUp]
    by_cases hlt : x < nums[j]
    · obtain ⟨mem1, hr, hmem1⟩ := hrec j mem hij hj hmem
      have hb : dfsBody nums rec i j (temp, mem) =
          some (max temp (1 + startAt nums j), mem1) := by
        simp only [dfsBody, hx, hy, hlt, if_true, hr, Option.map_some']
      obtain ⟨mem2, hr2, hmem2⟩ := ih (j + 1) (max temp (1 + startAt nums j)) mem1
        (by omega) (by omega) (by omega) hmem1
      refine ⟨mem2, ?_, hmem2⟩
      rw [hb, Option.some_bind, hr2]
      have e : max (max temp (1 + startAt nums j)) (bestFrom x (nums.drop (j + 1))) =
          max temp (bestFrom x (nums.drop j)) := by
        rw [drop_of_getElem? hy, startAt_of_getElem? hy]
        simp only [bestFrom, hlt, if_true]
        omega
      rw [e]
    · obtain ⟨mem2, hr2, hmem2⟩ := ih (j + 1) temp mem (by omega) (by omega) hpos hmem
      have hb : dfsBody nums rec i j (temp, mem) = some (temp, mem) := by
        simp only [dfsBody, hx, hy, hlt, if_false]
      have e : bestFrom x (nums.drop j) = bestFrom x (nums.drop (j + 1)) := by
        have := bestFrom_pos x (nums.drop (j + 1))
        rw [drop_of_getElem? hy]
        simp only [bestFrom, hlt, if_false]
        omega
      refine ⟨mem2, ?_, hmem2⟩
      rw [hb, Option.some_bind, hr2, e]

/-- With enough fuel `dfs(i)` returns the value of the recurrence at `i` and leaves a map
whose entries are all values of the recurrence. -/
theorem dfs_eq (nums : List Int) :
    ∀ (fuel i : Nat) (mem : Mem), nums.length - i < fuel → MemOK nums mem →
      ∃ mem1, dfs nums fuel i mem = some (startAt nums i, mem1) ∧ MemOK nums mem1 := by
  intro fuel
  induction fuel with
  | zero => intro i mem h _; omega
  | succ fuel ih =>
    intro i mem hfuel hmem
    simp only [dfs]
    by_cases hi : nums.length ≤ i
    · refine ⟨mem, ?_, hmem⟩
      rw [if_pos hi, startAt_of_le hi]
    · rw [if_neg hi]
      have hlt : i < nums.length := by omega
      have hx : nums[i]? = some nums[i] := List.getElem?_eq_getElem hlt
      cases hl : mem.lookup i with
      | some v =>
        refine ⟨mem, ?_, hmem⟩
        simp only [hmem i v hl]
      | none =>
        obtain ⟨mem1, hr, hmem1⟩ := forUp_dfsBody nums (dfs nums fuel) i nums[i] hx
          (fun j m hij hj hm => ih j m (by omega) hm)
          (nums.length - (i + 1)) (i + 1) 1 mem (by omega) (by omega) (le_refl _) hmem
        have e : max 1 (bestFrom nums[i] (nums.drop (i + 1))) = startAt nums i := by
          have := bestFrom_pos nums[i] (nums.drop (i + 1))
          rw [startAt_of_getElem? hx]
          omega
        rw [e] at hr
        refine ⟨(i, startAt nums i) :: mem1, ?_, MemOK_cons i hmem1⟩
        simp only [hr, Option.map_some']

theorem forUp_recBody (nums : List Int) :
    ∀ (c k r : Nat) (mem : Mem), k + c = nums.length → MemOK nums mem →
      ∃ mem1, forUp (recBody nums) c k (r, mem) =
        some (max r (lisAll (nums.drop k)), mem1) ∧ MemOK nums mem1 := by
  intro c
  induction c with
  | zero =>
    intro k r mem hk hmem
    refine ⟨mem, ?_, hmem⟩
    have hd : nums.drop k = [] := List.drop_eq_nil_of_le (by omega)
    simp [forUp, hd, lisAll]
  | succ c ih =>
    intro k r mem hk hmem
    have hlt : k < nums.length := by omega
    have hy : nums[k]? = some nums[k] := List.getElem?_eq_getElem hlt
    obtain ⟨mem1, hr, hmem1⟩ := dfs_eq nums (nums.length + 1) k mem (by omega) hmem
    obtain ⟨mem2, hr2, hmem2⟩ := ih (k + 1) (max r (startAt nums k)) mem1 (by omega) hmem1
    refine ⟨mem2, ?_, hmem2⟩
    have hb : recBody nums k (r, mem) = some (max r (startAt nums k), mem1) := by
      simp only [recBody, hr, Option.map_some']
    have e : max (max r (startAt nums k)) (lisAll (nums.drop (k + 1))) =
        max r (lisAll (nums.drop k)) := by
      rw [drop_of_getElem? hy, startAt_of_getElem? hy]
      simp only [lisAll]
      omega
    simp only [forUp]
    rw [hb, Option.some_bind, hr2, e]

/-- The function `lengthOfLISRecursive` returns the maximum of the recurrence. -/
theorem lengthOfLISRecursive_eq (nums : List Int) :
    lengthOfLISRecursive nums = some (lisAll nums) := by
  obtain ⟨mem1, hr, _⟩ := forUp_recBody nums nums.length 0 0 [] (by omega) (MemOK_nil nums)
  unfold lengthOfLISRecursive
  rw [hr]
  simp

end LIS

namespace Diameter

/-! ## The traversal computes heights and the greatest apex value -/

theorem height_ge (t : TreeNode) : -1 ≤ height t := by
  cases t with
  | nil => simp [height]
  | node v l r =>
    have := height_ge l
    simp only [height]
    omega

theorem height_nonneg {t : TreeNode} (h : t ≠ .nil) : 0 ≤ height t := by
  cases t with
  | nil => exact absurd rfl h
  | node v l r =>
    have := height_ge l
    simp only [height]
    omega

theorem diam_nonneg (t : TreeNode) : 0 ≤ diam t := by
  cases t with
  | nil => simp [diam]
  | node v l r =>
    have := height_ge l
    have := height_ge r
    simp only [diam]
    omega

theorem tree_dfs_eq (t : TreeNode) :
    ∀ res : Int, 0 ≤ res → dfs t res = (height t, max res (diam t)) := by
  induction t with
  | nil =>
    intro res h
    simp only [dfs, height, diam, Prod.mk.injEq, true_and]
    omega
  | node v l r ihl ihr =>
    intro res h
    have dl := diam_nonneg l
    have h1 : 0 ≤ max res (diam l) := by omega
    simp only [dfs, ihl res h, ihr _ h1, height, diam, Prod.mk.injEq, true_and]
    omega

theorem diameter_eq_diam (t : TreeNode) : diameterOfBinaryTree t = diam t := by
  have := diam_nonneg t
  simp only [diameterOfBinaryTree, tree_dfs_eq t 0 (le_refl 0)]
  omega

/-! ## Paths and distances -/

theorem isNode_length_le (t : TreeNode) :
    ∀ p : List Bool, isNode t p = true → (p.length : Int) ≤ height t := by
  induction t with
  | nil => intro p h; simp [isNode] at h
  | node v l r ihl ihr =>
    intro p h
    cases p with
    | nil =>
      have := height_ge l
      simp only [height, List.length_nil, Nat.cast_zero]
      omega
    | cons b p =>
      simp only [height, List.length_cons, Nat.cast_add, Nat.cast_one]
      cases b with
      | false =>
        have := ihl p (by simpa [isNode] using h)
        omega
      | true =>
        have := ihr p (by simpa [isNode] using h)
        omega

theorem exists_deepest (t : TreeNode) :
    t ≠ .nil → ∃ p : List Bool, isNode t p = true ∧ (p.length : Int) = height t := by
  induction t with
  | nil => intro h; exact absurd rfl h
  | node v l r ihl ihr =>
    intro _
    have hl := height_ge l
    have hr := height_ge r
    by_cases hln : l = .nil
    · by_cases hrn : r = .nil
      · subst hln hrn
        exact ⟨[], rfl, by simp [height]⟩
      · obtain ⟨p, hp, hpl⟩ := ihr hrn
        have := height_nonneg hrn
        refine ⟨true :: p, by simpa [isNode] using hp, ?_⟩
        subst hln
        simp only [height, List.length_cons, Nat.cast_add, Nat.cast_one] at *
        omega
    · have hl0 := height_nonneg hln
      by_cases hle : height r ≤ height l
      · obtain ⟨p, hp, hpl⟩ := ihl hln
        refine ⟨false :: p, by simpa [isNode] using hp, ?_⟩
        simp only [height, List.length_cons, Nat.cast_add, Nat.cast_one]
        omega
      · have hrn : r ≠ .nil := by
          intro h
          subst h
          simp only [height] at hle
          omega
        obtain ⟨p, hp, hpl⟩ := ihr hrn
        refine ⟨true :: p, by simpa [isNode] using hp, ?_⟩
        simp only [height, List.length_cons, Nat.cast_add, Nat.cast_one]
        omega

theorem dist_le_diam (t : TreeNode) :
    ∀ p q : List Bool, isNode t p = true → isNode t q = true → (dist p q : Int) ≤ diam t := by
  induction t with
  | nil => intro p q h; simp [isNode] at h
  | node v l r ihl ihr =>
    intro p q hp hq
    have hl := height_ge l
    have hr := height_ge r
    have dl := diam_nonneg l
    have dr := diam_nonneg r
    cases p with
    | nil =>
      cases q with
      | nil =>
        simp only [dist, diam, List.length_nil, Nat.cast_zero]
        omega
      | cons b q =>
        simp only [dist, diam, List.length_cons, Nat.cast_add, Nat.cast_one]
        cases b with
        | false =>
          have := isNode_length_le l q (by simpa [isNode] using hq)
          omega
        | true =>
          have := isNode_length_le r q (by simpa [isNode] using hq)
          omega
    | cons a p =>
      cases q with
      | nil =>
        simp only [dist, diam, List.length_cons, Nat.cast_add, Nat.cast_one]
        cases a with
        | false =>
          have := isNode_length_le l p (by simpa [isNode] using hp)
          omega
        | true =>
          have := isNode_length_le r p (by simpa [isNode] using hp)
          omega
      | cons b q =>
        cases a <;> cases b
        · have := ihl p q (by simpa [isNode] using hp) (by simpa [isNode] using hq)
          simp only [dist, diam, if_true]
          omega
        · have := isNode_length_le l p (by simpa [isNode] using hp)
          have := isNode_length_le r q (by simpa [isNode] using hq)
          simp only [dist, diam, Bool.false_eq_true, if_false, Nat.cast_add, Nat.cast_one]
          omega
        · have := isNode_length_le r p (by simpa [isNode] using hp)
          have := isNode_length_le l q (by simpa [isNode] using hq)
          simp only [dist, diam, Bool.true_eq_false, if_false, Nat.cast_add, Nat.cast_one]
          omega
        · have := ihr p q (by simpa [isNode] using hp) (by simpa [isNode] using hq)
          simp only [dist, diam, if_true]
          omega

/-- The distance is the sum of the two depths minus twice the depth of the lowest common
ancestor. -/
theorem dist_add_lca (p : List Bool) :
    ∀ q : List Bool, dist p q + 2 * (lca p q).length = p.length + q.length := by
  induction p with
  | nil => intro q; cases q <;> simp [dist, lca]
  | cons a p ih =>
    intro q
    cases q with
    | nil => simp [dist, lca]
    | cons b q =>
      by_cases h : a = b
      · have := ih q
        simp only [dist, lca, h, if_true, List.length_cons]
        omega
      · simp only [dist, lca, h, if_false, List.length_cons, List.length_nil]
        omega

theorem dist_comm (p : List Bool) : ∀ q : List Bool, dist p q = dist q p := by
  induction p with
  | nil => intro q; cases q <;> simp [dist]
  | cons a p ih =>
    intro q
    cases q with
    | nil => simp [dist]
    | cons b q =>
      by_cases h : a = b
      · subst h
        simp only [dist, if_true, ih q]
      · have h1 : ¬ b = a := fun e => h e.symm
        simp only [dist, h, h1, if_false]
        omega

theorem exists_arm (v : Int) (l r : TreeNode) (b : Bool) :
    ∃ p : List Bool, isNode (.node v l r) p = true ∧
      (p.length : Int) = height (if b then r else l) + 1 ∧ (p = [] ∨ ∃ p1, p = b :: p1) := by
  by_cases hn : (if b then r else l) = .nil
  · refine ⟨[], rfl, ?_, Or.inl rfl⟩
    rw [hn]
    simp [height]
  · obtain ⟨p, hp, hpl⟩ := exists_deepest _ hn
    refine ⟨b :: p, by simpa [isNode] using hp, ?_, Or.inr ⟨p, rfl⟩⟩
    simp only [List.length_cons, Nat.cast_add, Nat.cast_one]
    omega

theorem dist_arms {p q : List Bool} (hp : p = [] ∨ ∃ p1, p = false :: p1)
    (hq : q = [] ∨ ∃ q1, q = true :: q1) : dist p q = p.length + q.length := by
  rcases hp with rfl | ⟨p1, rfl⟩
  · cases q <;> simp [dist]
  · rcases hq with rfl | ⟨q1, rfl⟩
    · simp [dist]
    · simp [dist]

theorem diam_attained (t : TreeNode) :
    t ≠ .nil → ∃ p q : List Bool, isNode t p = true ∧ isNode t q = true ∧
      (dist p q : Int) = diam t := by
  induction t with
  | nil => intro h; exact absurd rfl h
  | node v l r ihl ihr =>
    intro _
    have dl := diam_nonneg l
    have dr := diam_nonneg r
    have hl := height_ge l
    have hr := height_ge r
    by_cases h1 : diam l ≤ 2 + height l + height r ∧ diam r ≤ 2 + height l + height r
    · obtain ⟨p, hp, hpl, hpf⟩ := exists_arm v l r false
      obtain ⟨q, hq, hql, hqf⟩ := exists_arm v l r true
      refine ⟨p, q, hp, hq, ?_⟩
      rw [dist_arms hpf hqf]
      simp only [diam, Nat.cast_add, hpl, hql]
      simp only [Bool.false_eq_true, if_false, if_true]
      omega
    · by_cases h2 : diam r ≤ diam l
      · have hln : l ≠ .nil := by
          intro h
          subst h
          simp only [diam, height] at h1 h2
          omega
        obtain ⟨p, q, hp, hq, hd⟩ := ihl hln
        refine ⟨false :: p, false :: q, by simpa [isNode] using hp, by simpa [isNode] using hq, ?_⟩
        simp only [dist, if_true, diam, hd]
        omega
      · have hrn : r ≠ .nil := by
          intro h
          subst h
          simp only [diam, height] at h1 h2
          omega
        obtain ⟨p, q, hp, hq, hd⟩ := ihr hrn
        refine ⟨true :: p, true :: q, by simpa [isNode] using hp, by simpa [isNode] using hq, ?_⟩
        simp only [dist, if_true, diam, hd]
        omega

theorem diam_spec (t : TreeNode) : IsDiameter t (diam t) := by
  refine ⟨dist_le_diam t, ?_⟩
  by_cases h : t = .nil
  · exact Or.inr ⟨h, by rw [h]; rfl⟩
  · exact Or.inl (diam_attained t h)

/-! ## Chains and mirror images -/

theorem chain_height_diam {t : TreeNode} (h : IsChain t) :
    height t = (size t : Int) - 1 ∧ diam t = (size t : Int) - 1 := by
  induction h with
  | last v => simp [height, diam, size]
  | left v l _ ih =>
    obtain ⟨ih1, ih2⟩ := ih
    have := height_ge l
    simp only [height, diam, size, ih1, ih2, Nat.cast_add, Nat.cast_one, Nat.cast_zero]
    omega
  | right v r _ ih =>
    obtain ⟨ih1, ih2⟩ := ih
    have := height_ge r
    simp only [height, diam, size, ih1, ih2, Nat.cast_add, Nat.cast_one, Nat.cast_zero]
    omega

theorem height_mirror (t : TreeNode) : height (mirror t) = height t := by
  induction t with
  | nil => rfl
  | node v l r ihl ihr =>
    simp only [mirror, height, ihl, ihr]
    omega

theorem diam_mirror (t : TreeNode) : diam (mirror t) = diam t := by
  induction t with
  | nil => rfl
  | node v l r ihl ihr =>
    simp only [mirror, diam, ihl, ihr, height_mirror]
    omega

end Diameter

namespace Diameter

/-! ## Heights, apex values and sizes -/

theorem dfs_fst (t : TreeNode) : ∀ res : Int, (dfs t res).1 = height t := by
  induction t with
  | nil => intro res; rfl
  | node v l r ihl ihr =>
    intro res
    simp only [dfs, height, ihl, ihr]

theorem foldl_max_apexes (t : TreeNode) :
    ∀ a : Int, 0 ≤ a → (apexes t).foldl max a = max a (diam t) := by
  induction t with
  | nil =>
    intro a ha
    simp only [apexes, diam, List.foldl_nil]
    omega
  | node v l r ihl ihr =>
    intro a ha
    have dl := diam_nonneg l
    have h1 : 0 ≤ max a (2 + height l + height r) := by omega
    have h2 : 0 ≤ max (max a (2 + height l + height r)) (diam l) := by omega
    simp only [apexes, diam, List.foldl_cons, List.foldl_append, ihl _ h1, ihr _ h2]
    omega

theorem height_le_diam (t : TreeNode) : height t ≤ diam t := by
  cases t with
  | nil => simp [height, diam]
  | node v l r =>
    have := height_ge l
    have := height_ge r
    simp only [height, diam]
    omega

theorem diam_le_two_height (t : TreeNode) : t ≠ .nil → diam t ≤ 2 * height t := by
  induction t with
  | nil => intro h; exact absurd rfl h
  | node v l r ihl ihr =>
    intro _
    have hl := height_ge l
    have hr := height_ge r
    have el : diam l ≤ 2 * (1 + max (height l) (height r)) := by
      by_cases hn : l = .nil
      · subst hn
        simp only [diam, height]
        omega
      · have := ihl hn
        omega
    have er : diam r ≤ 2 * (1 + max (height l) (height r)) := by
      by_cases hn : r = .nil
      · subst hn
        simp only [diam, height]
        omega
      · have := ihr hn
        omega
    simp only [height, diam]
    omega

theorem height_lt_size (t : TreeNode) : height t + 1 ≤ (size t : Int) := by
  induction t with
  | nil => simp [height, size]
  | node v l r ihl ihr =>
    simp only [height, size, Nat.cast_add, Nat.cast_one]
    omega

theorem diam_lt_size (t : TreeNode) : t ≠ .nil → diam t + 1 ≤ (size t : Int) := by
  induction t with
  | nil => intro h; exact absurd rfl h
  | node v l r ihl ihr =>
    intro _
    have hl := height_lt_size l
    have hr := height_lt_size r
    have el : diam l + 1 ≤ 1 + (size l : Int) + (size r : Int) := by
      by_cases hn : l = .nil
      · subst hn
        simp only [diam, size, Nat.cast_zero]
        omega
      · have := ihl hn
        omega
    have er : diam r + 1 ≤ 1 + (size l : Int) + (size r : Int) := by
      by_cases hn : r = .nil
      · subst hn
        simp only [diam, size, Nat.cast_zero]
        omega
      · have := ihr hn
        omega
    simp only [diam, size, Nat.cast_add, Nat.cast_one]
    omega

theorem size_eq_zero {t : TreeNode} (h : size t = 0) : t = .nil := by
  cases t with
  | nil => rfl
  | node v l r =>
    simp only [size] at h
    omega

end Diameter

namespace LIS

/-! ## Bounds and invariance of the recurrence -/

theorem bestFrom_append_bounds (rest : List Int) (x : Int) :
    ∀ a : Int, bestFrom a rest ≤ bestFrom a (rest ++ [x]) ∧
      bestFrom a (rest ++ [x]) ≤ bestFrom a rest + 1 := by
  induction rest with
  | nil =>
    intro a
    show bestFrom a [] ≤ bestFrom a [x] ∧ bestFrom a [x] ≤ bestFrom a [] + 1
    simp only [bestFrom]
    split <;> omega
  | cons y rest ih =>
    intro a
    have e1 := ih a
    have e2 := ih y
    show bestFrom a (y :: rest) ≤ bestFrom a (y :: (rest ++ [x])) ∧
      bestFrom a (y :: (rest ++ [x])) ≤ bestFrom a (y :: rest) + 1
    simp only [bestFrom]
    split <;> omega

theorem lisAll_append_bounds (S : List Int) (x : Int) :
    lisAll S ≤ lisAll (S ++ [x]) ∧ lisAll (S ++ [x]) ≤ lisAll S + 1 := by
  induction S with
  | nil =>
    show lisAll [] ≤ lisAll [x] ∧ lisAll [x] ≤ lisAll [] + 1
    simp [lisAll, bestFrom]
  | cons a rest ih =>
    have e1 := bestFrom_append_bounds rest x a
    show lisAll (a :: rest) ≤ lisAll (a :: (rest ++ [x])) ∧
      lisAll (a :: (rest ++ [x])) ≤ lisAll (a :: rest) + 1
    simp only [lisAll]
    omega

theorem lisAll_le_length (nums : List Int) : lisAll nums ≤ nums.length := by
  obtain ⟨s, hs, _, hl⟩ := lisAll_attained nums
  rw [← hl]
  exact hs.length_le

theorem lisAll_eq_length_iff (nums : List Int) :
    lisAll nums = nums.length ↔ nums.Chain' (· < ·) := by
  constructor
  · intro h
    obtain ⟨s, hs, hc, hl⟩ := lisAll_attained nums
    have : s = nums := hs.eq_of_length (by omega)
    rw [← this]
    exact hc
  · intro h
    have h1 := lisAll_upper nums nums (List.Sublist.refl nums) h
    have h2 := lisAll_le_length nums
    omega

theorem lt_iff_of_strictMono {f : Int → Int} (hf : ∀ a b, a < b → f a < f b) (x y : Int) :
    f x < f y ↔ x < y := by
  constructor
  · intro h
    by_contra hxy
    rcases lt_or_eq_of_le (not_lt.mp hxy) with h1 | h1
    · have := hf y x h1
      omega
    · rw [h1] at h
      omega
  · exact hf x y

theorem bestFrom_map (f : Int → Int) (hf : ∀ a b, a < b → f a < f b) (rest : List Int) :
    ∀ x : Int, bestFrom (f x) (rest.map f) = bestFrom x rest := by
  induction rest with
  | nil => intro x; rfl
  | cons y rest ih =>
    intro x
    show bestFrom (f x) (f y :: rest.map f) = bestFrom x (y :: rest)
    simp only [bestFrom, ih, lt_iff_of_strictMono hf]

theorem lisAll_map (f : Int → Int) (hf : ∀ a b, a < b → f a < f b) (S : List Int) :
    lisAll (S.map f) = lisAll S := by
  induction S with
  | nil => rfl
  | cons a rest ih =>
    show lisAll (f a :: rest.map f) = lisAll (a :: rest)
    simp only [lisAll, ih, bestFrom_map f hf]

end LIS

namespace LIS

/-! ## The table of the bottom-up algorithm, entry by entry -/

theorem bestFrom_ge_of_getElem? (rest : List Int) :
    ∀ (x : Int) (k : Nat) (y : Int), rest[k]? = some y → x < y →
      1 + bestFrom y (rest.drop (k + 1)) ≤ bestFrom x rest := by
  induction rest with
  | nil => intro x k y h; simp at h
  | cons z rest ih =>
    intro x k y h hxy
    cases k with
    | zero =>
      have hz : z = y := by simpa using h
      subst hz
      simp only [bestFrom, hxy, if_true, List.drop_succ_cons, List.drop_zero]
      omega
    | succ k =>
      have h1 : rest[k]? = some y := by simpa using h
      have := ih x k y h1 hxy
      simp only [bestFrom, List.drop_succ_cons]
      omega

theorem bestFrom_eq_one_or (rest : List Int) :
    ∀ x : Int, bestFrom x rest = 1 ∨ ∃ (k : Nat) (y : Int), rest[k]? = some y ∧ x < y ∧
      bestFrom x rest = 1 + bestFrom y (rest.drop (k + 1)) := by
  induction rest with
  | nil => intro x; exact Or.inl rfl
  | cons z rest ih =>
    intro x
    have hpos := bestFrom_pos x rest
    by_cases hxz : x < z ∧ bestFrom x rest ≤ 1 + bestFrom z rest
    · refine Or.inr ⟨0, z, by simp, hxz.1, ?_⟩
      simp only [bestFrom, hxz.1, if_true, List.drop_succ_cons, List.drop_zero]
      omega
    · have e : bestFrom x (z :: rest) = bestFrom x rest := by
        simp only [bestFrom]
        split <;> omega
      rcases ih x with h1 | ⟨k, y, hk, hxy, hv⟩
      · exact Or.inl (by rw [e, h1])
      · refine Or.inr ⟨k + 1, y, by simpa using hk, hxy, ?_⟩
        rw [e, hv]
        simp only [List.drop_succ_cons]

theorem startAt_eq {nums : List Int} {i : Nat} (hi : i < nums.length) :
    startAt nums i = bestFrom nums[i] (nums.drop (i + 1)) :=
  startAt_of_getElem? (List.getElem?_eq_getElem hi)

theorem startAt_pos {nums : List Int} {i : Nat} (hi : i < nums.length) :
    1 ≤ startAt nums i := by
  rw [startAt_eq hi]
  exact bestFrom_pos _ _

theorem startAt_ge {nums : List Int} {i j : Nat} (hi : i < nums.length) (hij : i < j)
    (hj : j < nums.length) (hlt : nums[i] < nums[j]) :
    1 + startAt nums j ≤ startAt nums i := by
  have hk : (nums.drop (i + 1))[j - (i + 1)]? = some nums[j] := by
    rw [List.getElem?_drop, ← List.getElem?_eq_getElem hj]
    congr 1
    omega
  have := bestFrom_ge_of_getElem? (nums.drop (i + 1)) nums[i] (j - (i + 1)) nums[j] hk hlt
  rw [List.drop_drop] at this
  have e : i + 1 + (j - (i + 1) + 1) = j + 1 := by omega
  rw [e] at this
  rw [startAt_eq hi, startAt_eq hj]
  exact this

theorem startAt_eq_one_or {nums : List Int} {i : Nat} (hi : i < nums.length) :
    startAt nums i = 1 ∨ ∃ (j : Nat) (hj : j < nums.length), i < j ∧ nums[i] < nums[j] ∧
      startAt nums i = 1 + startAt nums j := by
  rcases bestFrom_eq_one_or (nums.drop (i + 1)) nums[i] with h | ⟨k, y, hk, hxy, hv⟩
  · exact Or.inl (by rw [startAt_eq hi, h])
  · rw [List.getElem?_drop] at hk
    obtain ⟨hj, hy⟩ := List.getElem?_eq_some.mp hk
    refine Or.inr ⟨i + 1 + k, hj, by omega, ?_, ?_⟩
    · rw [hy]
      exact hxy
    · rw [startAt_eq hi, startAt_eq hj, hv, List.drop_drop, hy]
      rfl

theorem length_le_startAt (nums : List Int) (idx : List (Fin nums.length)) :
    ∀ i : Fin nums.length, IsIncSubseq nums idx → idx.head? = some i →
      idx.length ≤ startAt nums i := by
  induction idx with
  | nil => intro i _ h; simp at h
  | cons a tl ih =>
    intro i hinc hhead
    have ha : a = i := by simpa using hhead
    subst ha
    cases tl with
    | nil =>
      have := startAt_pos a.isLt
      simpa using this
    | cons b tl2 =>
      obtain ⟨h1, h2⟩ := hinc
      have hab : a < b := (List.chain'_cons.mp h1).1
      have hv : nums[a] < nums[b] := by
        have := (List.chain'_cons.mp (by simpa using h2)).1
        exact this
      have hrest : IsIncSubseq nums (b :: tl2) :=
        ⟨(List.chain'_cons.mp h1).2, (List.chain'_cons.mp (by simpa using h2)).2⟩
      have h3 := ih b hrest rfl
      have h4 := @startAt_ge nums a.val b.val a.isLt hab b.isLt hv
      simp only [List.length_cons] at h3 ⊢
      omega

theorem exists_idx_startAt (nums : List Int) :
    ∀ (m i : Nat) (hi : i < nums.length), nums.length - i ≤ m →
      ∃ idx, IsIncSubseq nums idx ∧ idx.head? = some ⟨i, hi⟩ ∧
        idx.length = startAt nums i := by
  intro m
  induction m with
  | zero => intro i hi h; omega
  | succ m ih =>
    intro i hi _
    rcases startAt_eq_one_or hi with h1 | ⟨j, hj, hij, hlt, hv⟩
    · refine ⟨[⟨i, hi⟩], ⟨List.chain'_singleton _, ?_⟩, rfl, by rw [h1]; rfl⟩
      simp
    · obtain ⟨idx, ⟨hc1, hc2⟩, hhead, hlen⟩ := ih j hj (by omega)
      cases idx with
      | nil => simp at hhead
      | cons b tl =>
        have hb : b = ⟨j, hj⟩ := by simpa using hhead
        subst hb
        refine ⟨⟨i, hi⟩ :: ⟨j, hj⟩ :: tl, ⟨?_, ?_⟩, rfl, ?_⟩
        · exact List.chain'_cons.mpr ⟨hij, hc1⟩
        · simp only [List.map_cons] at hc2 ⊢
          exact List.chain'_cons.mpr ⟨hlt, hc2⟩
        · simp only [List.length_cons] at hlen ⊢
          omega

theorem startAt_longestFrom (nums : List Int) (i : Fin nums.length) :
    IsLongestFrom nums i (startAt nums i) :=
  ⟨exists_idx_startAt nums (nums.length - i) i i.isLt (le_refl _),
    fun idx hinc hhead => length_le_startAt nums idx i hinc hhead⟩

theorem bestTable_getElem? (nums : List Int) (j : Nat) :
    (bestTable nums)[j]? = if j < nums.length then some (startAt nums j) else none := by
  rw [← tableAt_zero, tableAt, tab_getElem?]
  simp

theorem bestTable_length (nums : List Int) : (bestTable nums).length = nums.length := by
  rw [← tableAt_zero, tableAt, tab_length]

theorem startAt_recurrenceMax (nums : List Int) (i : Fin nums.length) :
    IsRecurrenceMax nums (bestTable nums) i (startAt nums i) := by
  refine ⟨startAt_pos i.isLt, ?_, ?_⟩
  · intro j t hij hlt ht
    rw [bestTable_getElem?, if_pos j.isLt] at ht
    have e : startAt nums j = t := by simpa using ht
    rw [← e]
    exact @startAt_ge nums i.val j.val i.isLt hij j.isLt hlt
  · rcases startAt_eq_one_or i.isLt with h1 | ⟨j, hj, hij, hlt, hv⟩
    · exact Or.inl h1
    · refine Or.inr ⟨⟨j, hj⟩, startAt nums j, hij, hlt, ?_, hv⟩
      rw [bestTable_getElem?, if_pos hj]

theorem lisTable_eq (nums : List Int) : lisTable nums = some (bestTable nums) := by
  unfold lisTable
  rw [initList_eq, Option.some_bind, lisOuter_eq]

end LIS

namespace LIS

/-! ## The index pairs visited by the bottom-up algorithm -/

theorem forUp_logged (nums : List Int) (i : Nat) :
    ∀ (c j : Nat) (log : List (Nat × Nat)), ∃ log1 : List (Nat × Nat),
      (∀ list, forUp (loggedBody nums i) c j (list, log) =
        (forUp (lisInnerBody nums i) c j list).map fun l => (l, log1)) ∧
      ∀ p ∈ log1, p ∈ log ∨ (p.1 = i ∧ j ≤ p.2 ∧ p.2 < j + c) := by
  intro c
  induction c with
  | zero =>
    intro j log
    exact ⟨log, fun list => rfl, fun p hp => Or.inl hp⟩
  | succ c ih =>
    intro j log
    obtain ⟨log1, h1, h2⟩ := ih (j + 1) ((i, j) :: log)
    refine ⟨log1, ?_, ?_⟩
    · intro list
      simp only [forUp, loggedBody]
      cases lisInnerBody nums i j list with
      | none => rfl
      | some l => simp only [Option.map_some', Option.some_bind, h1]
    · intro p hp
      rcases h2 p hp with h | h
      · rcases List.mem_cons.mp h with h3 | h3
        · right
          rw [h3]
          simp
        · exact Or.inl h3
      · right
        omega

theorem forDown_logged (nums : List Int) :
    ∀ (k : Nat) (log : List (Nat × Nat)), ∃ log1 : List (Nat × Nat),
      (∀ list, forDown (loggedInner nums) k (list, log) =
        (forDown (lisInner nums) k list).map fun l => (l, log1)) ∧
      ∀ p ∈ log1, p ∈ log ∨ (p.1 < p.2 ∧ p.2 < nums.length) := by
  intro k
  induction k with
  | zero =>
    intro log
    exact ⟨log, fun list => rfl, fun p hp => Or.inl hp⟩
  | succ k ih =>
    intro log
    obtain ⟨log1, h1, h2⟩ := forUp_logged nums k (nums.length - (k + 1)) (k + 1) log
    obtain ⟨log2, h3, h4⟩ := ih log1
    refine ⟨log2, ?_, ?_⟩
    · intro list
      simp only [forDown, loggedInner, lisInner, h1]
      cases forUp (lisInnerBody nums k) (nums.length - (k + 1)) (k + 1) list with
      | none => rfl
      | some l => simp only [Option.map_some', Option.some_bind, h3]
    · intro p hp
      rcases h4 p hp with h | h
      · rcases h2 p h with h5 | h5
        · exact Or.inl h5
        · right
          omega
      · exact Or.inr h

theorem lisInner_length (nums : List Int) (list : List Nat) :
    lisInner nums nums.length list = some list := by
  unfold lisInner
  have : nums.length - (nums.length + 1) = 0 := by omega
  rw [this]
  rfl

theorem loggedInner_length (nums : List Int) (st : List Nat × List (Nat × Nat)) :
    loggedInner nums nums.length st = some st := by
  unfold loggedInner
  have : nums.length - (nums.length + 1) = 0 := by omega
  rw [this]
  rfl

theorem lisTableLogged_eq (nums : List Int) :
    ∃ log : List (Nat × Nat), lisTableLogged nums = some (bestTable nums, log) ∧
      ∀ p ∈ log, p.1 < p.2 ∧ p.2 < nums.length := by
  obtain ⟨log, h1, h2⟩ := forDown_logged nums (nums.length + 1) []
  refine ⟨log, ?_, ?_⟩
  · have h := lisOuter_eq nums
    unfold lisOuter at h
    unfold lisTableLogged loggedOuter
    rw [initList_eq, Option.some_bind, h1, h]
    rfl
  · intro p hp
    rcases h2 p hp with h | h
    · simp at h
    · exact h

end LIS

namespace LIS

/-! ## Memoisation against the unmemoised recurrence -/

theorem forUp_plainBody (nums : List Int) (rec : Nat → Option Nat) (i : Nat) (x : Int)
    (hx : nums[i]? = some x)
    (hrec : ∀ j, i < j → j < nums.length → rec j = some (startAt nums j)) :
    ∀ (c j temp : Nat), i < j → j + c = nums.length → 1 ≤ temp →
      forUp (plainBody nums rec i) c j temp =
        some (max temp (bestFrom x (nums.drop j))) := by
  intro c
  induction c with
  | zero =>
    intro j temp _ hjc hpos
    have hd : nums.drop j = [] := List.drop_eq_nil_of_le (by omega)
    have : max temp (bestFrom x (nums.drop j)) = temp := by
      rw [hd]
      simp only [bestFrom]
      omega
    rw [this]
    rfl
  | succ c ih =>
    intro j temp hij hjc hpos
    have hj : j < nums.length := by omega
    have hy : nums[j]? = some nums[j] := List.getElem?_eq_getElem hj
    simp only [forUp]
    by_cases hlt : x < nums[j]
    · have hb : plainBody nums rec i j temp = some (max temp (1 + startAt nums j)) := by
        simp only [plainBody, hx, hy, hlt, if_true, hrec j hij hj, Option.map_some']
      have e : max (max temp (1 + startAt nums j)) (bestFrom x (nums.drop (j + 1))) =
          max temp (bestFrom x (nums.drop j)) := by
        rw [drop_of_getElem? hy, startAt_of_getElem? hy]
        simp only [bestFrom, hlt, if_true]
        omega
      rw [hb, Option.some_bind, ih (j + 1) _ (by omega) (by omega) (by omega), e]
    · have hb : plainBody nums rec i j temp = some temp := by
        simp only [plainBody, hx, hy, hlt, if_false]
      have e : bestFrom x (nums.drop j) = bestFrom x (nums.drop (j + 1)) := by
        have := bestFrom_pos x (nums.drop (j + 1))
        rw [drop_of_getElem? hy]
        simp only [bestFrom, hlt, if_false]
        omega
      rw [hb, Option.some_bind, ih (j + 1) temp (by omega) (by omega) hpos, e]

theorem dfsPlain_eq (nums : List Int) :
    ∀ (fuel i : Nat), nums.length - i < fuel → dfsPlain nums fuel i = some (startAt nums i) := by
  intro fuel
  induction fuel with
  | zero => intro i h; omega
  | succ fuel ih =>
    intro i hfuel
    simp only [dfsPlain]
    by_cases hi : nums.length ≤ i
    · rw [if_pos hi, startAt_of_le hi]
    · rw [if_neg hi]
      have hlt : i < nums.length := by omega
      have hx : nums[i]? = some nums[i] := List.getElem?_eq_getElem hlt
      rw [forUp_plainBody nums (dfsPlain nums fuel) i nums[i] hx
        (fun j hij hj => ih j (by omega)) _ (i + 1) 1 (by omega) (by omega) (le_refl _)]
      have := bestFrom_pos nums[i] (nums.drop (i + 1))
      rw [startAt_of_getElem? hx]
      congr 1
      omega

theorem memSound_iff (nums : List Int) (mem : Mem) : MemSound nums mem ↔ MemOK nums mem := by
  constructor
  · intro h i v hl
    have := h i v hl
    rw [dfsPlain_eq nums _ i (by omega)] at this
    exact (Option.some.inj this).symm
  · intro h i v hl
    rw [dfsPlain_eq nums _ i (by omega), h i v hl]

theorem visitAll_eq (nums : List Int) :
    ∀ (order : List Nat) (mem : Mem), MemOK nums mem →
      ∃ mem1, visitAll nums order mem = some (order.map (startAt nums), mem1) ∧
        MemOK nums mem1 := by
  intro order
  induction order with
  | nil => intro mem h; exact ⟨mem, rfl, h⟩
  | cons i rest ih =>
    intro mem h
    obtain ⟨mem1, h1, hm1⟩ := dfs_eq nums (nums.length + 1) i mem (by omega) h
    obtain ⟨mem2, h2, hm2⟩ := ih mem1 hm1
    refine ⟨mem2, ?_, hm2⟩
    simp only [visitAll, h1, Option.some_bind, h2, Option.map_some', List.map_cons]

end LIS

/-! ## Properties of the two longest-increasing-subsequence functions -/

namespace LIS

/-- Both functions agree on every non-empty slice. -/
theorem lengthOfLIS_eq_recursive (nums : List Int) (h : nums ≠ []) :
    lengthOfLIS nums = lengthOfLISRecursive nums := by
  rw [lengthOfLIS_eq nums h, lengthOfLISRecursive_eq]

/-- C1: for every finite integer sequence `nums`, `lengthOfLISRecursive(nums)` returns the
length of the longest strictly increasing subsequence of `nums`, that is the largest `k` for
which there are indices `i1 < ... < ik` with `nums[i1] < ... < nums[ik]`; on the empty
sequence it returns `0`. -/
theorem lengthOfLISRecursive_longest (nums : List Int) :
    (∃ k, lengthOfLISRecursive nums = some k ∧ IsLISLength nums k) ∧
      lengthOfLISRecursive [] = some 0 :=
  ⟨⟨lisAll nums, lengthOfLISRecursive_eq nums, lisAll_spec nums⟩, by decide⟩

/-- C2: for every non-empty integer sequence `nums`, the bottom-up `lengthOfLIS(nums)` returns
the length of the longest strictly increasing subsequence of `nums`; on
`[10,9,2,5,3,7,101,18]` it returns `4`. -/
theorem lengthOfLIS_longest (nums : List Int) (h : nums ≠ []) :
    (∃ k, lengthOfLIS nums = some k ∧ IsLISLength nums k) ∧
      lengthOfLIS [10, 9, 2, 5, 3, 7, 101, 18] = some 4 :=
  ⟨⟨lisAll nums, lengthOfLIS_eq nums h, lisAll_spec nums⟩, by decide⟩

theorem lengthOfLIS_longest_witness :
    ([3, 1, 2] : List Int) ≠ [] ∧
      ((∃ k, lengthOfLIS [3, 1, 2] = some k ∧ IsLISLength [3, 1, 2] k) ∧
        lengthOfLIS [10, 9, 2, 5, 3, 7, 101, 18] = some 4) :=
  ⟨by decide, lengthOfLIS_longest [3, 1, 2] (by decide)⟩

/-- C3: on the empty sequence the bottom-up `lengthOfLIS` does not return `0`: its table is
empty and the unguarded `slices.Max` panics, so the call yields no result. -/
theorem lengthOfLIS_nil : lengthOfLIS [] = none := by
  decide

/-- C4: on the empty sequence the two functions differ: `lengthOfLIS` panics while
`lengthOfLISRecursive` returns `0`. -/
theorem lengthOfLIS_nil_ne_recursive :
    lengthOfLIS [] = none ∧ lengthOfLISRecursive [] = some 0 ∧
      lengthOfLIS [] ≠ lengthOfLISRecursive [] := by
  decide

/-- C6: for a non-empty sequence `S` and an integer `x` strictly greater than every element
of `S`, both functions return on `S ++ [x]` one more than on `S`. -/
theorem lengthOfLIS_append_greater (S : List Int) (x : Int) (hS : S ≠ [])
    (hx : ∀ a ∈ S, a < x) :
    (∃ k, lengthOfLIS S = some k ∧ lengthOfLIS (S ++ [x]) = some (k + 1)) ∧
      (∃ k, lengthOfLISRecursive S = some k ∧
        lengthOfLISRecursive (S ++ [x]) = some (k + 1)) := by
  have hSx : S ++ [x] ≠ [] := by simp
  refine ⟨⟨lisAll S, lengthOfLIS_eq S hS, ?_⟩, ⟨lisAll S, lengthOfLISRecursive_eq S, ?_⟩⟩
  · rw [lengthOfLIS_eq _ hSx, lisAll_append_gt S x hS hx]
  · rw [lengthOfLISRecursive_eq, lisAll_append_gt S x hS hx]

theorem lengthOfLIS_append_greater_witness :
    (∃ k, lengthOfLIS [4, 1, 3] = some k ∧ lengthOfLIS ([4, 1, 3] ++ [5]) = some (k + 1)) ∧
      (∃ k, lengthOfLISRecursive [4, 1, 3] = some k ∧
        lengthOfLISRecursive ([4, 1, 3] ++ [5]) = some (k + 1)) :=
  lengthOfLIS_append_greater [4, 1, 3] 5 (by decide) (by decide)

/-- C7: for every non-empty non-increasing sequence (each element is less than or equal to
the one before it), both functions return `1`. -/
theorem lengthOfLIS_nonincreasing (S : List Int) (hS : S ≠ []) (h : S.Chain' (· ≥ ·)) :
    lengthOfLIS S = some 1 ∧ lengthOfLISRecursive S = some 1 := by
  have hp : S.Pairwise (· ≥ ·) := List.chain'_iff_pairwise.mp h
  rw [lengthOfLIS_eq S hS, lengthOfLISRecursive_eq, lisAll_of_nonincreasing S hS hp]
  exact ⟨rfl, rfl⟩

theorem lengthOfLIS_nonincreasing_witness :
    lengthOfLIS [5, 4, 4, 2, 1] = some 1 ∧ lengthOfLISRecursive [5, 4, 4, 2, 1] = some 1 :=
  lengthOfLIS_nonincreasing [5, 4, 4, 2, 1] (by decide) (by simp)

/-- C8: for every integer `x`, `lengthOfLIS([x]) = 1` and `lengthOfLISRecursive([x]) = 1`. -/
theorem lengthOfLIS_singleton (x : Int) :
    lengthOfLIS [x] = some 1 ∧ lengthOfLISRecursive [x] = some 1 := by
  rw [lengthOfLIS_eq [x] (by simp), lengthOfLISRecursive_eq]
  simp [lisAll, bestFrom]

end LIS

/-! ## Properties of the diameter function -/

namespace Diameter

/-- C5: for every binary tree, the empty one included, `diameterOfBinaryTree(root)` is the
greatest tree distance between two nodes of the tree (the number of edges of the longest
path between two nodes, through the root or not), and `0` for the empty tree. -/
theorem diameterOfBinaryTree_longest_path (root : TreeNode) :
    IsDiameter root (diameterOfBinaryTree root) := by
  rw [diameter_eq_diam]
  exact diam_spec root

/-- C9: for every `n ≥ 1` and every straight chain of `n` nodes, `diameterOfBinaryTree`
returns `n - 1`. -/
theorem diameterOfBinaryTree_chain (n : Nat) (t : TreeNode) (_hn : 1 ≤ n) (hc : IsChain t)
    (hs : size t = n) : diameterOfBinaryTree t = (n : Int) - 1 := by
  rw [diameter_eq_diam, (chain_height_diam hc).2, hs]

theorem diameterOfBinaryTree_chain_witness :
    diameterOfBinaryTree
      (.node 7 (.node 8 .nil (.node 9 .nil .nil)) .nil) = ((3 : Nat) : Int) - 1 :=
  diameterOfBinaryTree_chain 3 (.node 7 (.node 8 .nil (.node 9 .nil .nil)) .nil) (by decide)
    (IsChain.left 7 _ (IsChain.right 8 _ (IsChain.last 9))) (by decide)

/-- C10: for every binary tree `t`, `diameterOfBinaryTree(mirror(t)) =
diameterOfBinaryTree(t)`, where `mirror` exchanges the two children of every node. -/
theorem diameterOfBinaryTree_mirror (t : TreeNode) :
    diameterOfBinaryTree (mirror t) = diameterOfBinaryTree t := by
  rw [diameter_eq_diam, diameter_eq_diam, diam_mirror]

end Diameter

/-! ## Further properties of the diameter function -/

namespace Diameter

/-- C11: for every tree with at most one node (the absent root, or a single node without
children, whatever its value), `diameterOfBinaryTree` returns `0`; on the absent root the
closure leaves the running maximum `res` as it was, so it keeps its initial value `0`. -/
theorem diameterOfBinaryTree_small (t : TreeNode) (h : size t ≤ 1) :
    diameterOfBinaryTree t = 0 ∧ ∀ res : Int, (dfs .nil res).2 = res := by
  refine ⟨?_, fun res => rfl⟩
  cases t with
  | nil => rfl
  | node v l r =>
    simp only [size] at h
    have hl : l = .nil := size_eq_zero (by omega)
    have hr : r = .nil := size_eq_zero (by omega)
    subst hl hr
    rw [diameter_eq_diam]
    simp [diam, height]

theorem diameterOfBinaryTree_small_witness :
    diameterOfBinaryTree (.node 42 .nil .nil) = 0 ∧ ∀ res : Int, (dfs .nil res).2 = res :=
  diameterOfBinaryTree_small (.node 42 .nil .nil) (by decide)

/-- C12: for every tree made of a root whose left and right children are both leaves, with
any node values, `diameterOfBinaryTree` returns `2`. -/
theorem diameterOfBinaryTree_two_leaves (v a b : Int) :
    diameterOfBinaryTree (.node v (.node a .nil .nil) (.node b .nil .nil)) = 2 := by
  rw [diameter_eq_diam]
  simp [diam, height]

/-- C16: the closure `dfs` returns the height of the subtree counted in edges (`-1` for an
absent node, `0` for a leaf, one more than the greater of the children's heights otherwise,
whatever the running maximum is), and the final result is the maximum of `0` and of
`2 + height(v.left) + height(v.right)` over every node `v` of the tree. -/
theorem dfs_height_and_result (t : TreeNode) :
    (∀ res : Int, (dfs t res).1 = height t) ∧
      (∀ res : Int, (dfs .nil res).1 = -1) ∧
      (∀ (v res : Int), (dfs (.node v .nil .nil) res).1 = 0) ∧
      (∀ (v : Int) (l r : TreeNode) (res res1 res2 : Int),
        (dfs (.node v l r) res).1 = 1 + max (dfs l res1).1 (dfs r res2).1) ∧
      diameterOfBinaryTree t = (apexes t).foldl max 0 := by
  refine ⟨dfs_fst t, fun _ => rfl, ?_, ?_, ?_⟩
  · intro v res
    rw [dfs_fst]
    simp [height]
  · intro v l r res res1 res2
    rw [dfs_fst, dfs_fst, dfs_fst]
    rfl
  · have := diam_nonneg t
    rw [diameter_eq_diam, foldl_max_apexes t 0 (le_refl 0)]
    omega

/-- C20: for every non-empty binary tree with `n` nodes and height `h`, the result `d` of
`diameterOfBinaryTree` satisfies `h ≤ d ≤ 2*h` and `d ≤ n - 1`; in particular it is never
negative. -/
theorem diameterOfBinaryTree_bounds (t : TreeNode) (h : t ≠ .nil) :
    height t ≤ diameterOfBinaryTree t ∧ diameterOfBinaryTree t ≤ 2 * height t ∧
      diameterOfBinaryTree t ≤ (size t : Int) - 1 ∧ 0 ≤ diameterOfBinaryTree t := by
  have h1 := height_le_diam t
  have h2 := diam_le_two_height t h
  have h3 := diam_lt_size t h
  have h4 := diam_nonneg t
  rw [diameter_eq_diam]
  omega

theorem diameterOfBinaryTree_bounds_witness :
    height (.node 1 (.node 2 .nil .nil) .nil) ≤
        diameterOfBinaryTree (.node 1 (.node 2 .nil .nil) .nil) ∧
      diameterOfBinaryTree (.node 1 (.node 2 .nil .nil) .nil) ≤
        2 * height (.node 1 (.node 2 .nil .nil) .nil) ∧
      diameterOfBinaryTree (.node 1 (.node 2 .nil .nil) .nil) ≤
        (size (.node 1 (.node 2 .nil .nil) .nil) : Int) - 1 ∧
      0 ≤ diameterOfBinaryTree (.node 1 (.node 2 .nil .nil) .nil) :=
  diameterOfBinaryTree_bounds (.node 1 (.node 2 .nil .nil) .nil) (by decide)

end Diameter

/-! ## Further properties of the two longest-increasing-subsequence functions -/

namespace LIS

/-- C13: both functions use the element values in comparisons only: for every non-empty
sequence `S` and every strictly order-preserving map `f` on the integers, each function
returns on `S.map f` what it returns on `S`; the result is a count, at most `len(S)`; and
sequences holding the least and greatest 64-bit values are treated like any other. -/
theorem lengthOfLIS_map_strictMono (S : List Int) (f : Int → Int) (hS : S ≠ [])
    (hf : ∀ a b, a < b → f a < f b) :
    lengthOfLIS (S.map f) = lengthOfLIS S ∧
      lengthOfLISRecursive (S.map f) = lengthOfLISRecursive S ∧
      (∃ k, lengthOfLIS S = some k ∧ lengthOfLISRecursive S = some k ∧ k ≤ S.length) ∧
      lengthOfLIS [-9223372036854775808, 0, 9223372036854775807] = some 3 ∧
      lengthOfLISRecursive [9223372036854775807, 0, -9223372036854775808] = some 1 := by
  have hSf : S.map f ≠ [] := by simpa using hS
  refine ⟨?_, ?_, ⟨lisAll S, lengthOfLIS_eq S hS, lengthOfLISRecursive_eq S,
    lisAll_le_length S⟩, by decide, by decide⟩
  · rw [lengthOfLIS_eq _ hSf, lengthOfLIS_eq S hS, lisAll_map f hf]
  · rw [lengthOfLISRecursive_eq, lengthOfLISRecursive_eq, lisAll_map f hf]

theorem lengthOfLIS_map_strictMono_witness :
    lengthOfLIS ([3, 1, 2].map fun a => 2 * a + 7) = lengthOfLIS [3, 1, 2] ∧
      lengthOfLISRecursive ([3, 1, 2].map fun a => 2 * a + 7) = lengthOfLISRecursive [3, 1, 2] ∧
      (∃ k, lengthOfLIS [3, 1, 2] = some k ∧ lengthOfLISRecursive [3, 1, 2] = some k ∧
        k ≤ ([3, 1, 2] : List Int).length) ∧
      lengthOfLIS [-9223372036854775808, 0, 9223372036854775807] = some 3 ∧
      lengthOfLISRecursive [9223372036854775807, 0, -9223372036854775808] = some 1 :=
  lengthOfLIS_map_strictMono [3, 1, 2] (fun a => 2 * a + 7) (by decide)
    (fun a b h => by show 2 * a + 7 < 2 * b + 7; omega)

/-- C18: for every sequence `S` and every integer `x`, appending `x` never lowers the result
of `lengthOfLISRecursive` and raises it by at most one. -/
theorem lengthOfLISRecursive_append (S : List Int) (x : Int) :
    ∃ a b, lengthOfLISRecursive S = some a ∧ lengthOfLISRecursive (S ++ [x]) = some b ∧
      a ≤ b ∧ b ≤ a + 1 :=
  ⟨lisAll S, lisAll (S ++ [x]), lengthOfLISRecursive_eq S, lengthOfLISRecursive_eq _,
    (lisAll_append_bounds S x).1, (lisAll_append_bounds S x).2⟩

/-- C19: for every non-empty sequence `nums`, the result `k` of `lengthOfLISRecursive`
satisfies `1 ≤ k ≤ len(nums)`, and `k = len(nums)` exactly when `nums` is strictly
increasing. -/
theorem lengthOfLISRecursive_bounds (nums : List Int) (h : nums ≠ []) :
    ∃ k, lengthOfLISRecursive nums = some k ∧ 1 ≤ k ∧ k ≤ nums.length ∧
      (k = nums.length ↔ nums.Chain' (· < ·)) :=
  ⟨lisAll nums, lengthOfLISRecursive_eq nums, lisAll_pos h, lisAll_le_length nums,
    lisAll_eq_length_iff nums⟩

theorem lengthOfLISRecursive_bounds_witness :
    ∃ k, lengthOfLISRecursive [1, 5, 9] = some k ∧ 1 ≤ k ∧ k ≤ ([1, 5, 9] : List Int).length ∧
      (k = ([1, 5, 9] : List Int).length ↔ ([1, 5, 9] : List Int).Chain' (· < ·)) :=
  lengthOfLISRecursive_bounds [1, 5, 9] (by decide)

/-- C14: when the nested loops of `lengthOfLIS` finish, the table has one entry per index,
and for every valid index `i` the entry `list[i]` is the length of the longest strictly
increasing subsequence of `nums` that starts at index `i`; equivalently `list[i]` is
`max(1, max over j > i with nums[j] > nums[i] of 1 + list[j])`.  The final maximum is taken
over this table. -/
theorem lisTable_entries (nums : List Int) :
    ∃ table, lisTable nums = some table ∧ table.length = nums.length ∧
      lengthOfLIS nums = slicesMax table ∧
      ∀ i : Fin nums.length, ∃ v, table[i.val]? = some v ∧ IsLongestFrom nums i v ∧
        IsRecurrenceMax nums table i v := by
  refine ⟨bestTable nums, lisTable_eq nums, bestTable_length nums, ?_, ?_⟩
  · have h := lisTable_eq nums
    unfold lisTable at h
    unfold lengthOfLIS
    cases hinit : initList nums.length with
    | none => rw [hinit] at h; simp at h
    | some list =>
      rw [hinit, Option.some_bind] at h
      rw [Option.some_bind, h, Option.some_bind]
  · intro i
    refine ⟨startAt nums i, ?_, startAt_longestFrom nums i, startAt_recurrenceMax nums i⟩
    rw [bestTable_getElem?, if_pos i.isLt]

/-- C17: for every non-empty sequence `nums`, `lengthOfLIS` makes no access out of range
(the run does not panic and returns a result); the body of the inner loop is not executed
for the first value `i = len(nums)` of the outer loop, which leaves the state as it is; and
every execution of the body, reading `nums[i]`, `nums[j]`, `list[i]` and `list[j]`, has
`0 ≤ i < j < len(nums)`. -/
theorem lengthOfLIS_in_range (nums : List Int) (h : nums ≠ []) :
    ∃ table log, lisTableLogged nums = some (table, log) ∧ lisTable nums = some table ∧
      (∃ k, lengthOfLIS nums = some k) ∧
      (∀ st, loggedInner nums nums.length st = some st) ∧
      (∀ p ∈ log, p.1 ≠ nums.length) ∧
      ∀ p ∈ log, 0 ≤ p.1 ∧ p.1 < p.2 ∧ p.2 < nums.length := by
  obtain ⟨log, h1, h2⟩ := lisTableLogged_eq nums
  refine ⟨bestTable nums, log, h1, lisTable_eq nums, ⟨lisAll nums, lengthOfLIS_eq nums h⟩,
    loggedInner_length nums, ?_, ?_⟩
  · intro p hp
    have := h2 p hp
    omega
  · intro p hp
    have := h2 p hp
    omega

theorem lengthOfLIS_in_range_witness :
    ∃ table log, lisTableLogged [2, 7, 5] = some (table, log) ∧
      lisTable [2, 7, 5] = some table ∧
      (∃ k, lengthOfLIS [2, 7, 5] = some k) ∧
      (∀ st, loggedInner [2, 7, 5] ([2, 7, 5] : List Int).length st = some st) ∧
      (∀ p ∈ log, p.1 ≠ ([2, 7, 5] : List Int).length) ∧
      ∀ p ∈ log, 0 ≤ p.1 ∧ p.1 < p.2 ∧ p.2 < ([2, 7, 5] : List Int).length :=
  lengthOfLIS_in_range [2, 7, 5] (by decide)

/-- C15: memoisation does not change results.  Whenever every entry present in `mem` equals
the value of the unmemoised recurrence at its key (as is the case for the empty map of a
fresh top-level call), a call `dfs(i)` returns the value of the unmemoised recurrence at `i`
and leaves a map with the same property; hence calls for any indices in any order all
return the values of the unmemoised recurrence. -/
theorem dfs_memo_sound (nums : List Int) (fuel i : Nat) (mem : Mem) (order : List Nat)
    (hfuel : nums.length - i < fuel) (hmem : MemSound nums mem) :
    (∃ v mem1, dfsPlain nums fuel i = some v ∧ dfs nums fuel i mem = some (v, mem1) ∧
        MemSound nums mem1) ∧
      (∃ vals mem1, visitAll nums order mem = some (vals, mem1) ∧
        vals.map some = order.map (dfsPlain nums (nums.length + 1)) ∧ MemSound nums mem1) ∧
      MemSound nums [] := by
  have hok : MemOK nums mem := (memSound_iff nums mem).mp hmem
  refine ⟨?_, ?_, (memSound_iff nums []).mpr (MemOK_nil nums)⟩
  · obtain ⟨mem1, h1, hm1⟩ := dfs_eq nums fuel i mem hfuel hok
    exact ⟨startAt nums i, mem1, dfsPlain_eq nums fuel i hfuel, h1,
      (memSound_iff nums mem1).mpr hm1⟩
  · obtain ⟨mem1, h1, hm1⟩ := visitAll_eq nums order mem hok
    refine ⟨order.map (startAt nums), mem1, h1, ?_, (memSound_iff nums mem1).mpr hm1⟩
    rw [List.map_map]
    apply List.map_congr_left
    intro k _
    exact (dfsPlain_eq nums _ k (by omega)).symm

theorem dfs_memo_sound_witness :
    (∃ v mem1, dfsPlain [1, 3, 2] 4 0 = some v ∧ dfs [1, 3, 2] 4 0 [(2, 1)] = some (v, mem1) ∧
        MemSound [1, 3, 2] mem1) ∧
      (∃ vals mem1, visitAll [1, 3, 2] [2, 0, 1] [(2, 1)] = some (vals, mem1) ∧
        vals.map some = [2, 0, 1].map (dfsPlain [1, 3, 2] (([1, 3, 2] : List Int).length + 1)) ∧
        MemSound [1, 3, 2] mem1) ∧
      MemSound [1, 3, 2] [] :=
  dfs_memo_sound [1, 3, 2] 4 0 [(2, 1)] [2, 0, 1] (by decide) (by
    intro k v h
    by_cases hk : k = 2
    · subst hk
      have hv : v = 1 := by simpa [List.lookup] using h.symm
      subst hv
      decide
    · have hb : (k == 2) = false := by simpa using hk
      simp [List.lookup, hb] at h)

end LIS
